import Mathlib

/-!
# Verification of the `analyse` text-analysis engine (`src/util.ts`)

Shallow embedding of the tokenization, classification, canonicalization
and filtering pipeline of `analyse`, together with the module-level
helpers it uses (`ignore_list` expansion, `HAN_REGEX`, `HIRAGANA_REGEX`,
`ALL_ASCII`, `FIAT_REGEX`, the replacement/alias regexes).

External collaborators that are not repository code (the `Intl.Segmenter`
word segmenter, JavaScript `Number()` parsing, the `pluralize` library,
the OpenCC traditional-to-simplified converter, and the Unicode
`Unified_Ideograph` property data used by the regex engine) are modelled
from the spec; each such definition says so in its doc comment.
-/

/-- ASCII lowercase letter test, used by the 60%-letters filter
(`replace(/[^a-z]/g, "")`). -/
def isAzChar (c : Char) : Bool := 0x61 ≤ c.toNat && c.toNat ≤ 0x7a

/-- ASCII digit test. -/
def isDigitChar (c : Char) : Bool := 0x30 ≤ c.toNat && c.toNat ≤ 0x39

/-- ASCII letter (either case). -/
def isAsciiLetter (c : Char) : Bool :=
  (0x41 ≤ c.toNat && c.toNat ≤ 0x5a) || (0x61 ≤ c.toNat && c.toNat ≤ 0x7a)

/-- The regex word-character class `\w` = `[A-Za-z0-9_]`, as used by the
`\b` boundaries of the alias regex and by the possessive rewrite. -/
def isWordChar (c : Char) : Bool :=
  isAsciiLetter c || isDigitChar c || c == Char.ofNat 0x5f

/-- Whitespace, for JS `Number()` trimming and the segmenter model. -/
def isWsChar (c : Char) : Bool :=
  c == ' ' || c == Char.ofNat 9 || c == Char.ofNat 10 || c == Char.ofNat 13 ||
  c == Char.ofNat 11 || c == Char.ofNat 12

/-- Character class of `HAN_REGEX` (`src/util.ts:32`):
`[\p{Unified_Ideograph}〆〇]` (the optional trailing variation
selector does not affect whether a string contains a match). Modelled
from the spec: the Unicode `Unified_Ideograph` property is regex-engine
data; we cover its assigned blocks (URO, Extension A, Extensions B–H,
compatibility range endpoints excluded). -/
def isHanChar (c : Char) : Bool :=
  (0x4e00 ≤ c.toNat && c.toNat ≤ 0x9fff) ||
  (0x3400 ≤ c.toNat && c.toNat ≤ 0x4dbf) ||
  c.toNat == 0x3006 || c.toNat == 0x3007 ||
  (0x20000 ≤ c.toNat && c.toNat ≤ 0x2a6df) ||
  (0x2a700 ≤ c.toNat && c.toNat ≤ 0x2ebef) ||
  (0x30000 ≤ c.toNat && c.toNat ≤ 0x3134a)

/-- A string matches `HAN_REGEX` iff it contains a Han character. -/
def han_match (s : String) : Bool := s.data.any isHanChar

/-- Character class of `HIRAGANA_REGEX` (`src/util.ts:35`), taken range
by range from the source pattern. -/
def isKanaChar (c : Char) : Bool :=
  (0x3000 ≤ c.toNat && c.toNat ≤ 0x303f) ||
  (0x3040 ≤ c.toNat && c.toNat ≤ 0x309f) ||
  (0x30a0 ≤ c.toNat && c.toNat ≤ 0x30ff) ||
  (0xff00 ≤ c.toNat && c.toNat ≤ 0xffef) ||
  (0x4e00 ≤ c.toNat && c.toNat ≤ 0x9faf) ||
  (0x2605 ≤ c.toNat && c.toNat ≤ 0x2606) ||
  (0x2190 ≤ c.toNat && c.toNat ≤ 0x2195) ||
  c.toNat == 0x203b

/-- A string matches `HIRAGANA_REGEX` iff it contains such a character. -/
def hiragana_match (s : String) : Bool := s.data.any isKanaChar

/-- Embedding of `ALL_ASCII` (`src/util.ts:39`): `^[\x00-\x7F]+$` — nonempty and
every character is ASCII. -/
def all_ascii (s : String) : Bool := !s.data.isEmpty && s.data.all (·.toNat ≤ 0x7f)

/-- Modelled from the spec: JavaScript `Number(s)` parses the whole
(whitespace-trimmed) string as a numeric literal; the empty trimmed
string parses as `0`. `Number.isNaN(Number(s))` is therefore the
negation of this predicate. Covers decimal literals with optional sign,
fraction and exponent, `Infinity`, and unsigned hex/octal/binary
literals. -/
def jsIsNumericChars (l : List Char) : Bool :=
  let t := ((l.dropWhile isWsChar).reverse.dropWhile isWsChar).reverse
  let expPart : List Char → Bool := fun r =>
    match r with
    | [] => true
    | e :: r1 =>
      (e == 'e' || e == 'E') &&
        (let r2 := if r1.head? == some '+' || r1.head? == some '-' then r1.tail else r1
         !r2.isEmpty && r2.all isDigitChar)
  let decimalTail : List Char → Bool := fun r =>
    -- digits [. digits*] [exp]  or  . digits+ [exp]
    (let ds := r.takeWhile isDigitChar
     let rest := r.dropWhile isDigitChar
     if ds.isEmpty then
       match rest with
       | c :: rest2 =>
         c == '.' && !(rest2.takeWhile isDigitChar).isEmpty &&
           expPart (rest2.dropWhile isDigitChar)
       | [] => false
     else
       match rest with
       | [] => true
       | c :: rest2 =>
         if c == '.' then expPart (rest2.dropWhile isDigitChar) else expPart rest)
  let unsigned : List Char → Bool := fun r =>
    r == "Infinity".data ||
    (match r with
     | z :: x :: rest =>
       (z == '0' && (x == 'x' || x == 'X') && !rest.isEmpty &&
          rest.all (fun c => isDigitChar c || (0x41 ≤ c.toNat && c.toNat ≤ 0x46) ||
            (0x61 ≤ c.toNat && c.toNat ≤ 0x66))) ||
       (z == '0' && (x == 'o' || x == 'O') && !rest.isEmpty &&
          rest.all (fun c => 0x30 ≤ c.toNat && c.toNat ≤ 0x37)) ||
       (z == '0' && (x == 'b' || x == 'B') && !rest.isEmpty &&
          rest.all (fun c => c == '0' || c == '1')) ||
       decimalTail (z :: x :: rest)
     | r => decimalTail r)
  match t with
  | [] => true
  | c :: rest =>
    if c == '+' || c == '-' then
      (rest == "Infinity".data || decimalTail rest)
    else
      unsigned (c :: rest)

/-- The test `Number.isNaN(Number(s))` on a string. -/
def number_isNaN (s : String) : Bool := !jsIsNumericChars s.data

/-- A segment produced by the word segmenter: the `{segment, isWordLike}`
pair consumed by `analyse` (spec §3, `src/util.ts:99`). -/
structure Seg where
  segment : String
  isWordLike : Bool
deriving Repr, DecidableEq

/-- The apostrophe character, written by code point to keep the source
free of quote-literal noise. -/
def apos : Char := Char.ofNat 0x27

/-- Modelled from the spec: `String.prototype.toLowerCase` (ASCII
range; the inputs of interest are ASCII and CJK, and CJK characters
are case-invariant). -/
def toLowerModel (s : String) : String :=
  String.mk (s.data.map (fun c =>
    if 0x41 ≤ c.toNat && c.toNat ≤ 0x5a then Char.ofNat (c.toNat + 0x20) else c))

/-- URL tail characters `[a-zA-Z0-9\.-]` of the t.co-stripping regex. -/
def isUrlChar (c : Char) : Bool :=
  isAsciiLetter c || isDigitChar c || c == '.' || c == '-'

/-- Match `://t.co/[a-zA-Z0-9\.-]*` (with the source pattern's unescaped
dot, which matches any character) at the head of `l2`; `base` is the
number of characters already consumed (`"http"` or `"https"`). Returns
the total number of characters of the whole match. -/
def tcoTail (l2 : List Char) (base : Nat) : Option Nat :=
  match l2 with
  | c1 :: c2 :: c3 :: c4 :: _ :: c6 :: c7 :: c8 :: rest =>
    if c1 == ':' && c2 == '/' && c3 == '/' && c4 == 't' && c6 == 'c' && c7 == 'o' && c8 == '/' then
      some (base + 8 + (rest.takeWhile isUrlChar).length)
    else none
  | _ => none

/-- Leftmost match of `https?:\/\/t.co\/[a-zA-Z0-9\.-]*`
(`src/util.ts:88`) at the head of `l`; returns the match length. -/
def matchTco (l : List Char) : Option Nat :=
  match l with
  | 'h' :: 't' :: 't' :: 'p' :: rest =>
    (match rest with
     | 's' :: rest2 =>
       (match tcoTail rest2 5 with
        | some n => some n
        | none => tcoTail rest 4)
     | _ => tcoTail rest 4)
  | _ => none

/-- Global replacement of every t.co URL by the empty string
(`src/util.ts:88`), scanning left to right. The fuel argument only
bounds the recursion; every step consumes at least one character, so
fuel `l.length` (as passed by `goUrls`) never runs out. -/
def goUrlsF : ℕ → List Char → List Char
  | 0, l => l
  | _ + 1, [] => []
  | f + 1, c :: cs =>
    match matchTco (c :: cs) with
    | some n => goUrlsF f (cs.drop (n - 1))
    | none => c :: goUrlsF f cs

/-- The replacement `replace(/https?:\/\/t.co\/...\/g, "")` with sufficient fuel. -/
def goUrls (l : List Char) : List Char := goUrlsF l.length l

/-- Global first-alternative-wins literal replacement, the behaviour of
`replaces_regex` (`src/util.ts:76,89`): at each position the first
configured key that is a literal prefix is replaced by its value and the
scan resumes after the consumed key. -/
def goReplaceF (pairs : List (String × String)) : ℕ → List Char → List Char
  | 0, l => l
  | _ + 1, [] => []
  | f + 1, c :: cs =>
    match pairs.find? (fun p => p.1.data.isPrefixOf (c :: cs)) with
    | some p => p.2.data ++ goReplaceF pairs f (cs.drop (p.1.data.length - 1))
    | none => c :: goReplaceF pairs f cs

/-- Wrapper for `goReplaceF` with always-sufficient fuel. -/
def goReplace (pairs : List (String × String)) (l : List Char) : List Char :=
  goReplaceF pairs l.length l

/-- Word-character test lifted to an optional character; the ends of the
string count as non-word for `\b`. -/
def wOpt : Option Char → Bool
  | none => false
  | some c => isWordChar c

/-- Whether alias key `k` matches at the head of `l` with word
boundaries (`\b(k)\b`) on both sides, given the previous character. -/
def aliasKeyAt (prev : Option Char) (k : String) (l : List Char) : Bool :=
  k.data.isPrefixOf l &&
  (wOpt prev != wOpt k.data.head?) &&
  (wOpt k.data.getLast? != wOpt (l.drop k.data.length).head?)

/-- Global word-boundary-delimited alias replacement, the behaviour of
`aliases_regex` (`src/util.ts:77,90`). -/
def goAliasF (pairs : List (String × String)) : ℕ → Option Char → List Char → List Char
  | 0, _, l => l
  | _ + 1, _, [] => []
  | f + 1, prev, c :: cs =>
    match pairs.find? (fun p => aliasKeyAt prev p.1 (c :: cs)) with
    | some p => p.2.data ++ goAliasF pairs f p.1.data.getLast? (cs.drop (p.1.data.length - 1))
    | none => c :: goAliasF pairs f (some c) cs

/-- Wrapper for `goAliasF` with always-sufficient fuel. -/
def goAlias (pairs : List (String × String)) (prev : Option Char) (l : List Char) : List Char :=
  goAliasF pairs l.length prev l

/-- The possessive rewrite `/(\w)'s/g → "$1 is"` (`src/util.ts:91`). -/
def goPoss : List Char → List Char
  | [] => []
  | [c] => [c]
  | [c, c2] => [c, c2]
  | c :: c2 :: c3 :: rest =>
    if isWordChar c && c2 == apos && c3 == 's' then
      c :: ' ' :: 'i' :: 's' :: goPoss rest
    else
      c :: goPoss (c2 :: c3 :: rest)

/-- The process-wide configuration consumed by `analyse` (`config.json`
plus the fiat sign table from `cmc.json` and the ignore-list file, all
external data): literal replacements, aliases, multi-word terms, the
ideograph-density threshold, the two exclusion flags, fiat signs, the
base ignore list (file lines), and the traditional→simplified map. -/
structure Config where
  replaces : List (String × String)
  aliases : List (String × String)
  terms : List String
  /-- Numerator of `hanzi_percentage`; the JS float threshold is
  modelled as the exact rational `hanzi_num / hanzi_den`. -/
  hanzi_num : ℤ
  /-- Denominator of `hanzi_percentage` (positive in sane configs). -/
  hanzi_den : ℕ
  ignore_all_hanzi : Bool
  ignore_all_hiragana : Bool
  fiat_signs : List String
  ignore_base : List String
  t2s_map : List (Char × Char)
deriving Repr, DecidableEq

/-- Floor `Math.floor(n * (num/den))` for an integer `n` and an exact rational
threshold: floor division of `n * num` by `den`. -/
def floor_mul_frac (n : ℕ) (num : ℤ) (den : ℕ) : ℤ := Int.fdiv ((n : ℤ) * num) (den : ℤ)

/-- Modelled from the spec: the external OpenCC traditional-to-simplified
conversion service (`src/util.ts:74`), as a per-character map. -/
def t2s_convert (m : List (Char × Char)) (s : String) : String :=
  String.mk (s.data.map (fun c =>
    match m.find? (fun p => p.1 == c) with
    | some p => p.2
    | none => c))

/-- The normalizer (`src/util.ts:85-92`): lowercase, strip t.co URLs,
literal replacements, word-bounded alias replacements, possessive
rewrite, traditional→simplified conversion — in source order. -/
def normalizeText (cfg : Config) (raw : String) : String :=
  t2s_convert cfg.t2s_map
    (String.mk (goPoss (goAlias cfg.aliases none (goReplace cfg.replaces (goUrls (toLowerModel raw).data)))))

/-- ASCII alphanumeric, the word-segment alphabet of the segmenter model. -/
def isAlnumChar (c : Char) : Bool := isAsciiLetter c || isDigitChar c

/-- Modelled from the spec: the external `Intl.Segmenter` word segmenter
(spec §2/§6, `src/util.ts:79-82,99`). Maximal ASCII-alphanumeric runs
are word-like segments; maximal whitespace runs are single
non-word-like segments; each Han/kana character is its own word-like
segment; every other character is its own non-word-like segment. -/
def segGoF : ℕ → List Char → List Seg
  | 0, _ => []
  | _ + 1, [] => []
  | f + 1, c :: cs =>
    if isAlnumChar c then
      ⟨String.mk (c :: cs.takeWhile isAlnumChar), true⟩ :: segGoF f (cs.dropWhile isAlnumChar)
    else if isWsChar c then
      ⟨String.mk (c :: cs.takeWhile isWsChar), false⟩ :: segGoF f (cs.dropWhile isWsChar)
    else if isHanChar c || isKanaChar c then
      ⟨String.mk [c], true⟩ :: segGoF f cs
    else
      ⟨String.mk [c], false⟩ :: segGoF f cs

/-- Segment a string with the modelled segmenter. -/
def modelSegment (s : String) : List Seg := segGoF s.data.length s.data

/-- The tag characters of the handle/hashtag/cashtag rule
(`src/util.ts:97`). -/
def tags : List String := ["@", "#", "$"]

/-- First configured term of the same length as the window that agrees
with it position by position (`src/util.ts:107-109`). -/
def findTerm (terms : List (List String)) (potential : List String) : Option (List String) :=
  (terms.filter (fun term => term.length == potential.length)).find?
    (fun term => (term.zip potential).all (fun p => p.1 == p.2))

/-- Embedding of `Math.max(...terms.map(t => t.length))` as a natural number; for an
empty term list JS yields `-Infinity` and the window loop is empty,
which `0` reproduces (`src/util.ts:95,104`). -/
def max_term_length (terms : List (List String)) : ℕ :=
  (terms.map (·.length)).foldl max 0

/-- The descending window loop
`for (let j = max_term_length - 1; j > 0; j--)`: the list
`[m-1, ..., 1]`. -/
def windowRange (m : ℕ) : List ℕ := (List.range' 1 (m - 1)).reverse

/-- The inner term-matching loop at one cursor position
(`src/util.ts:104-118`): windows of `j+1` segments, longest first; on
the first matching term return its text joined with `""` and the window
parameter `j`. -/
def tryTerms (terms : List (List String)) (segs : List Seg) : Option (String × ℕ) :=
  (windowRange (max_term_length terms)).findSome? (fun j =>
    match findTerm terms ((segs.take (j + 1)).map (·.segment)) with
    | some t => some (String.join t, j)
    | none => none)

/-- The `while` loop of the hyphen-compound rule (`src/util.ts:137-141`):
collects the chained words and counts the consumed segments
(`i += 2` per `- word` pair). -/
def hyphenChain (group : List String) : List Seg → (List String × ℕ)
  | d :: w :: rest =>
    if d.segment == "-" && w.isWordLike then
      let r := hyphenChain (group ++ [w.segment]) rest
      (r.1, r.2 + 2)
    else (group, 0)
  | _ => (group, 0)

/-- The labelled `outer` scan of `analyse` (`src/util.ts:103-154`).
Each rule advances the cursor exactly as the mutable `i` does,
including the `i++` of the `for` header performed after every
`continue`:
* term match with window parameter `j`: `i += j + 1` plus the loop
  increment, so `j + 2` segments are passed over;
* tag rule: `i++` plus the loop increment — two segments;
* hyphen rule: `i += 2` per consumed pair plus the loop increment;
* word rule or no rule: one segment. -/
def tokenizeF (terms : List (List String)) : ℕ → List Seg → List String
  | 0, _ => []
  | _ + 1, [] => []
  | f + 1, s :: rest =>
    match tryTerms terms (s :: rest) with
    | some (tok, j) => tok :: tokenizeF terms f (rest.drop (j + 1))
    | none =>
      match rest with
      | s1 :: rest1 =>
        if tags.contains s.segment && s1.isWordLike && number_isNaN s1.segment then
          (s.segment ++ s1.segment) :: tokenizeF terms f rest1
        else if s.isWordLike && s1.segment == "-" then
          let hc := hyphenChain [s.segment] (s1 :: rest1)
          (String.intercalate "-" hc.1) :: tokenizeF terms f ((s1 :: rest1).drop hc.2)
        else if s.isWordLike && number_isNaN s.segment then
          s.segment :: tokenizeF terms f (s1 :: rest1)
        else tokenizeF terms f (s1 :: rest1)
      | [] =>
        if s.isWordLike && number_isNaN s.segment then [s.segment] else []

/-- Wrapper for `tokenizeF` with always-sufficient fuel (every step of the scan
consumes at least one segment). -/
def tokenize (terms : List (List String)) (segs : List Seg) : List String :=
  tokenizeF terms segs.length segs

/-- Alias lookup of canonicalization (`src/util.ts:160`):
`w in config.aliases ? config.aliases[w] : w`. -/
def aliasApply (aliases : List (String × String)) (w : String) : String :=
  match aliases.find? (fun p => p.1 == w) with
  | some p => p.2
  | none => w

/-- Embedding of `[...new Set(list)]` (`src/util.ts:159-161`): deduplication keeping
the first occurrence of each string, in order. -/
def dedupFirstF : ℕ → List String → List String
  | 0, _ => []
  | _ + 1, [] => []
  | f + 1, x :: xs => x :: dedupFirstF f (xs.filter (fun y => y != x))

/-- Wrapper for `dedupFirstF` with always-sufficient fuel (`filter` never lengthens
the list). -/
def dedupFirst (l : List String) : List String := dedupFirstF l.length l

/-- Canonicalize-and-deduplicate (`src/util.ts:159-161`). -/
def canonicalize (aliases : List (String × String)) (words : List String) : List String :=
  dedupFirst (words.map (aliasApply aliases))

/-- The language classifier (`src/util.ts:156-157`): strictly more Han
tokens than `Math.floor(words.length * hanzi_percentage)`. -/
def classify (cfg : Config) (words : List String) : Bool :=
  decide (((words.filter han_match).length : ℤ) >
    floor_mul_frac words.length cfg.hanzi_num cfg.hanzi_den)

/-- Strip every configured fiat sign (`FIAT_REGEX`, `src/util.ts:42,171`):
global alternation replacement by the empty string, keys taken
literally because the source escapes them with `escape_regex`. -/
def stripFiat (signs : List String) (s : String) : String :=
  String.mk (goReplace (signs.map (fun x => (x, ""))) s.data)

/-- The replacement `replace(/[kmbt,-]/g, "")` (`src/util.ts:171`). -/
def stripKmbt (s : String) : String :=
  String.mk (s.data.filter (fun c =>
    !(c == 'k' || c == 'm' || c == 'b' || c == 't' || c == ',' || c == '-')))

/-- The replacement `replace(/[^a-z]/g, "")` (`src/util.ts:174`). -/
def stripNonAz (s : String) : String := String.mk (s.data.filter isAzChar)

/-- Modelled from the spec: `String.prototype.trim`, used on each line
of the ignore-list file (`src/util.ts:11`). -/
def trimModel (s : String) : String :=
  String.mk (((s.data.dropWhile isWsChar).reverse.dropWhile isWsChar).reverse)

/-- Modelled from the spec: the external `pluralize` library
(`pluralize(word, 0)` returns the plural form). Simple English rules:
sibilant endings take `es`, consonant-`y` becomes `ies`, otherwise
append `s`. -/
def pluralizeModel (w : String) : String :=
  let l := w.data
  match l.getLast? with
  | none => w
  | some c =>
    if c == 's' || c == 'x' || c == 'z' then w ++ "es"
    else if c == 'h' && (l.dropLast.getLast? == some 'c' || l.dropLast.getLast? == some 's') then
      w ++ "es"
    else if c == 'y' && !(match l.dropLast.getLast? with
        | some v => v == 'a' || v == 'e' || v == 'i' || v == 'o' || v == 'u'
        | none => false) then
      String.mk l.dropLast ++ "ies"
    else w ++ "s"

/-- The expansion of one ignore-list entry (`src/util.ts:12`):
`[word, pluralize(word, 0), word + "ing", word.slice(0, -1) + "ing",
word + "d", word + "ed"]`. -/
def expand_entry (pl : String → String) (word : String) : List String :=
  [word, pl word, word ++ "ing", String.mk word.data.dropLast ++ "ing",
   word ++ "d", word ++ "ed"]

/-- The expanded ignore set (`src/util.ts:7-13`): the file lines
(`ignore_base`), trimmed, flat-mapped through the variant expansion.
Membership in the JS `Set` is membership in this list. -/
def ignore_list (cfg : Config) : List String :=
  (cfg.ignore_base.map trimModel).flatMap (expand_entry pluralizeModel)

/-- The length-floor conjunct of the filter (`src/util.ts:172`): words
with neither a Han nor a kana character must be longer than two
characters; CJK words are exempt. -/
def length_floor_pass (w : String) : Bool :=
  if !(han_match w) && !(hiragana_match w) then decide (2 < w.length) else true

/-- The filter predicate of `analyse` (`src/util.ts:167-175`): a word is
kept iff the whole conjunction holds. The length-times-0.6 floor is
modelled by `⌊3·len/5⌋`, which agrees with the double-precision
`Math.floor(w.length * 0.6)` for every realistic length. -/
def keepWord (cfg : Config) (w : String) : Bool :=
  (if cfg.ignore_all_hanzi then !(han_match w) else true) &&
  (if cfg.ignore_all_hiragana then !(hiragana_match w) else true) &&
  number_isNaN (stripKmbt (stripFiat cfg.fiat_signs w)) &&
  length_floor_pass w &&
  all_ascii w &&
  decide (((stripNonAz w).length : ℤ) > floor_mul_frac w.length 3 5) &&
  !((ignore_list cfg).contains w)

/-- The analysis result `{is_chinese, words}` (spec §3). -/
structure AnalysisResult where
  is_chinese : Bool
  words : List String
deriving Repr, DecidableEq

/-- Pre-segmentation of the configured terms (`src/util.ts:94`), with
the modelled segmenter. -/
def segmentedTerms (cfg : Config) : List (List String) :=
  cfg.terms.map (fun t => (modelSegment (toLowerModel t)).map (·.segment))

/-- The operation `analyse` from the segment list onward (`src/util.ts:101-178`). -/
def analyseSegs (cfg : Config) (no_filter : Bool) (segs : List Seg) : AnalysisResult :=
  let words := tokenize (segmentedTerms cfg) segs
  let is_chinese := classify cfg words
  let unique_words := canonicalize cfg.aliases words
  if no_filter then ⟨is_chinese, unique_words⟩
  else ⟨is_chinese, unique_words.filter (keepWord cfg)⟩

/-- The public `analyse` operation (`src/util.ts:84-178`), with the
external segmenter modelled. -/
def analyse (cfg : Config) (no_filter : Bool) (raw : String) : AnalysisResult :=
  analyseSegs cfg no_filter (modelSegment (normalizeText cfg raw))

/-- Written from the spec's words, for the refinement comparison in the
length-floor claim: the same filter but with the length floor applied
unconditionally (no short-CJK exemption). -/
def keepWordPlain (cfg : Config) (w : String) : Bool :=
  (if cfg.ignore_all_hanzi then !(han_match w) else true) &&
  (if cfg.ignore_all_hiragana then !(hiragana_match w) else true) &&
  number_isNaN (stripKmbt (stripFiat cfg.fiat_signs w)) &&
  decide (2 < w.length) &&
  all_ascii w &&
  decide (((stripNonAz w).length : ℤ) > floor_mul_frac w.length 3 5) &&
  !((ignore_list cfg).contains w)

/-- The continuation condition of the hyphen `while` loop
(`src/util.ts:137`): the remainder starts with a literal `-` segment
followed by a word-like segment. -/
def chainStep : List Seg → Bool
  | d :: w :: _ => d.segment == "-" && w.isWordLike
  | _ => false

/-- The segment sequence of an alternating `- word - word ...` chain. -/
def chainSegs (ws : List String) : List Seg :=
  ws.flatMap (fun x => [⟨"-", false⟩, ⟨x, true⟩])

/-- Scenario A configuration (spec §8): terms `["stop loss"]`, aliases
`{"btc": "bitcoin"}`, threshold `0.5`, both exclusion flags off, no
fiat signs, empty ignore list. -/
def cfgScenA : Config :=
  { replaces := [], aliases := [("btc", "bitcoin")], terms := ["stop loss"],
    hanzi_num := 1, hanzi_den := 2, ignore_all_hanzi := false,
    ignore_all_hiragana := false, fiat_signs := [], ignore_base := [], t2s_map := [] }

/-- Scenario B configuration (spec §8): like Scenario A but with no
terms and no aliases. -/
def cfgScenB : Config := { cfgScenA with aliases := [], terms := [] }

/-- Configuration whose base ignore list is the single line `run`. -/
def cfgRun : Config := { cfgScenB with ignore_base := ["run"] }

/-! ## Helper lemmas -/

theorem classify_nil (cfg : Config) : classify cfg [] = false := by
  simp [classify, floor_mul_frac, Int.zero_fdiv]

theorem isHanChar_large {c : Char} (h : isHanChar c = true) : 0x7f < c.toNat := by
  simp only [isHanChar, Bool.or_eq_true, Bool.and_eq_true, decide_eq_true_eq,
    beq_iff_eq] at h
  omega

theorem isKanaChar_large {c : Char} (h : isKanaChar c = true) : 0x7f < c.toNat := by
  simp only [isKanaChar, Bool.or_eq_true, Bool.and_eq_true, decide_eq_true_eq,
    beq_iff_eq] at h
  omega

theorem han_match_of_ascii {w : String} (h : all_ascii w = true) : han_match w = false := by
  simp only [all_ascii, Bool.and_eq_true, List.all_eq_true, decide_eq_true_eq] at h
  simp only [han_match, List.any_eq_false]
  intro c hc
  intro hhan
  exact absurd (h.2 c hc) (by have := isHanChar_large hhan; omega)

theorem hiragana_match_of_ascii {w : String} (h : all_ascii w = true) :
    hiragana_match w = false := by
  simp only [all_ascii, Bool.and_eq_true, List.all_eq_true, decide_eq_true_eq] at h
  simp only [hiragana_match, List.any_eq_false]
  intro c hc
  intro hkana
  exact absurd (h.2 c hc) (by have := isKanaChar_large hkana; omega)

theorem tokenizeF_congr (terms : List (List String)) :
    ∀ (f g : ℕ) (segs : List Seg), segs.length ≤ f → segs.length ≤ g →
      tokenizeF terms f segs = tokenizeF terms g segs := by
  intro f
  induction f with
  | zero =>
    intro g segs hf _
    have hnil : segs = [] := List.eq_nil_of_length_eq_zero (Nat.le_zero.mp hf)
    subst hnil
    cases g <;> rfl
  | succ f ih =>
    intro g segs hf hg
    cases segs with
    | nil => cases g <;> rfl
    | cons s rest =>
      cases g with
      | zero => simp at hg
      | succ g =>
        simp only [List.length_cons, Nat.succ_le_succ_iff] at hf hg
        simp only [tokenizeF]
        cases htt : tryTerms terms (s :: rest) with
        | some p =>
          obtain ⟨tok, j⟩ := p
          have hd : (rest.drop (j + 1)).length ≤ rest.length := by
            rw [List.length_drop]; exact Nat.sub_le _ _
          exact congrArg _ (ih g _ (le_trans hd hf) (le_trans hd hg))
        | none =>
          cases rest with
          | nil => rfl
          | cons s1 rest1 =>
            simp only [List.length_cons] at hf hg
            by_cases h1 : (tags.contains s.segment && s1.isWordLike && number_isNaN s1.segment) = true
            · simp only [h1, if_true]
              exact congrArg _ (ih g _ (by omega) (by omega))
            · simp only [h1, if_false, Bool.false_eq_true]
              by_cases h2 : (s.isWordLike && s1.segment == "-") = true
              · simp only [h2, if_true]
                have hd : ((s1 :: rest1).drop (hyphenChain [s.segment] (s1 :: rest1)).2).length
                    ≤ rest1.length + 1 := by
                  rw [List.length_drop]; simp only [List.length_cons]; omega
                exact congrArg _ (ih g _ (by omega) (by omega))
              · simp only [h2, if_false, Bool.false_eq_true]
                by_cases h3 : (s.isWordLike && number_isNaN s.segment) = true
                · simp only [h3, if_true]
                  exact congrArg _ (ih g _ (by simp only [List.length_cons]; omega)
                    (by simp only [List.length_cons]; omega))
                · simp only [h3, if_false, Bool.false_eq_true]
                  exact ih g _ (by simp only [List.length_cons]; omega)
                    (by simp only [List.length_cons]; omega)

theorem tokenize_eq_tokenizeF (terms : List (List String)) (f : ℕ) (segs : List Seg)
    (h : segs.length ≤ f) : tokenize terms segs = tokenizeF terms f segs :=
  tokenizeF_congr terms segs.length f segs le_rfl h

theorem tokenize_term_step (terms : List (List String)) (s : Seg) (rest : List Seg)
    (tok : String) (j : ℕ) (h : tryTerms terms (s :: rest) = some (tok, j)) :
    tokenize terms (s :: rest) = tok :: tokenize terms (rest.drop (j + 1)) := by
  show tokenizeF terms (s :: rest).length (s :: rest) = _
  simp only [List.length_cons, tokenizeF, h]
  refine congrArg _ ?_
  exact (tokenize_eq_tokenizeF terms rest.length _
    (by rw [List.length_drop]; exact Nat.sub_le _ _)).symm

theorem dedupFirstF_congr :
    ∀ (f g : ℕ) (l : List String), l.length ≤ f → l.length ≤ g →
      dedupFirstF f l = dedupFirstF g l := by
  intro f
  induction f with
  | zero =>
    intro g l hf _
    have hnil : l = [] := List.eq_nil_of_length_eq_zero (Nat.le_zero.mp hf)
    subst hnil
    cases g <;> rfl
  | succ f ih =>
    intro g l hf hg
    cases l with
    | nil => cases g <;> rfl
    | cons x xs =>
      cases g with
      | zero => simp at hg
      | succ g =>
        simp only [List.length_cons, Nat.succ_le_succ_iff] at hf hg
        have hflt := List.length_filter_le (fun y => y != x) xs
        simp only [dedupFirstF]
        exact congrArg _ (ih g _ (by omega) (by omega))

theorem dedupFirst_cons (x : String) (xs : List String) :
    dedupFirst (x :: xs) = x :: dedupFirst (xs.filter (fun y => y != x)) := by
  show dedupFirstF (x :: xs).length (x :: xs) = _
  simp only [List.length_cons, dedupFirstF]
  refine congrArg _ ?_
  exact dedupFirstF_congr xs.length _ _ (List.length_filter_le _ _) le_rfl

theorem dedupFirst_mem : ∀ (l : List String) (y : String), y ∈ dedupFirst l → y ∈ l
  | [], y, h => by simp only [dedupFirst, dedupFirstF] at h; exact absurd h (List.not_mem_nil y)
  | x :: xs, y, h => by
    rw [dedupFirst_cons] at h
    rcases List.mem_cons.mp h with h1 | h2
    · exact h1 ▸ List.mem_cons_self _ _
    · exact List.mem_cons_of_mem _
        (List.mem_of_mem_filter (dedupFirst_mem (xs.filter (fun y => y != x)) y h2))
termination_by l => l.length
decreasing_by
  have := List.length_filter_le (fun y => y != x) xs
  simp only [List.length_cons]; omega

theorem dedupFirst_nodup : ∀ (l : List String), (dedupFirst l).Nodup
  | [] => by simp [dedupFirst, dedupFirstF]
  | x :: xs => by
    rw [dedupFirst_cons]
    refine List.nodup_cons.mpr ⟨?_, dedupFirst_nodup (xs.filter (fun y => y != x))⟩
    intro hmem
    have := List.mem_filter.mp (dedupFirst_mem _ x hmem)
    simp at this
termination_by l => l.length
decreasing_by
  have := List.length_filter_le (fun y => y != x) xs
  simp only [List.length_cons]; omega

theorem dedupFirst_eq_self : ∀ (l : List String), l.Nodup → dedupFirst l = l
  | [], _ => rfl
  | x :: xs, h => by
    obtain ⟨hx, hxs⟩ := List.nodup_cons.mp h
    rw [dedupFirst_cons]
    have hfe : xs.filter (fun y => y != x) = xs :=
      List.filter_eq_self.mpr (fun y hy => by
        simp only [bne_iff_ne, ne_eq, decide_eq_true_eq]
        exact fun he => hx (he ▸ hy))
    rw [hfe, dedupFirst_eq_self xs hxs]
termination_by l => l.length

theorem dedupFirst_idem (l : List String) : dedupFirst (dedupFirst l) = dedupFirst l :=
  dedupFirst_eq_self _ (dedupFirst_nodup l)

theorem chainSegs_length (ws : List String) : (chainSegs ws).length = 2 * ws.length := by
  induction ws with
  | nil => rfl
  | cons w ws ih => simp only [chainSegs, List.flatMap_cons] at ih ⊢; simp [ih]; omega

theorem hyphenChain_stop (g : List String) (l : List Seg) (h : chainStep l = false) :
    hyphenChain g l = (g, 0) := by
  match l with
  | [] => rfl
  | [d] => rfl
  | d :: w :: rest =>
    simp only [chainStep] at h
    simp only [hyphenChain, h, Bool.false_eq_true, if_false]

theorem hyphenChain_run (ws : List String) :
    ∀ (g : List String) (rest : List Seg), chainStep rest = false →
      hyphenChain g (chainSegs ws ++ rest) = (g ++ ws, 2 * ws.length) := by
  induction ws with
  | nil =>
    intro g rest h
    simpa [chainSegs] using hyphenChain_stop g rest h
  | cons w ws ih =>
    intro g rest h
    simp only [chainSegs, List.flatMap_cons, List.cons_append, List.append_assoc]
    show hyphenChain g (⟨"-", false⟩ :: ⟨w, true⟩ :: (chainSegs ws ++ rest)) = _
    simp only [hyphenChain, beq_self_eq_true, Bool.and_self, if_true]
    rw [ih (g ++ [w]) rest h]
    simp only [Prod.mk.injEq, List.append_assoc, List.singleton_append, List.length_cons]
    exact ⟨trivial, by omega⟩

theorem tokenizeF_nil_of (terms : List (List String)) :
    ∀ (f : ℕ) (segs : List Seg),
      (∀ s ∈ segs, s.isWordLike = false) →
      (∀ i, i < segs.length → tryTerms terms (segs.drop i) = none) →
      tokenizeF terms f segs = [] := by
  intro f
  induction f with
  | zero => intro segs _ _; rfl
  | succ f ih =>
    intro segs h1 h2
    cases segs with
    | nil => rfl
    | cons s rest =>
      have ht0 : tryTerms terms (s :: rest) = none := by
        simpa using h2 0 (by simp)
      simp only [tokenizeF, ht0]
      have hs : s.isWordLike = false := h1 s (List.mem_cons_self _ _)
      cases rest with
      | nil => simp [hs]
      | cons s1 rest1 =>
        have hs1 : s1.isWordLike = false := h1 s1 (by simp)
        simp only [hs, hs1, Bool.and_false, Bool.false_and, Bool.false_eq_true, if_false]
        exact ih (s1 :: rest1) (fun x hx => h1 x (List.mem_cons_of_mem _ hx))
          (fun i hi => by
            have := h2 (i + 1) (by simpa using Nat.succ_lt_succ hi)
            simpa using this)

theorem aliasApply_square (A : List (String × String))
    (h : ∀ p ∈ A, aliasApply A p.2 = p.2) (s : String) :
    aliasApply A (aliasApply A s) = aliasApply A s := by
  cases hf : A.find? (fun p => p.1 == s) with
  | none => simp [aliasApply, hf]
  | some p =>
    have hmem : p ∈ A := List.mem_of_find?_eq_some hf
    have : aliasApply A s = p.2 := by simp [aliasApply, hf]
    rw [this]
    exact h p hmem

/-! ## Claims -/

/-- C9: `analyse` is deterministic — two calls with identical raw input,
identical options and identical configuration return the same
`is_chinese` value and the same words sequence; the embedding carries
no mutable state between calls. -/
theorem C9_deterministic (cfg1 cfg2 : Config) (nf1 nf2 : Bool) (raw1 raw2 : String)
    (hcfg : cfg1 = cfg2) (hnf : nf1 = nf2) (hraw : raw1 = raw2) :
    (analyse cfg1 nf1 raw1).is_chinese = (analyse cfg2 nf2 raw2).is_chinese ∧
    (analyse cfg1 nf1 raw1).words = (analyse cfg2 nf2 raw2).words := by
  subst hcfg; subst hnf; subst hraw
  exact ⟨rfl, rfl⟩

/-- Witness for C9 at Scenario A's configuration and input. -/
theorem C9_witness :
    (analyse cfgScenA false "BTC stop loss now").is_chinese
      = (analyse cfgScenA false "BTC stop loss now").is_chinese ∧
    (analyse cfgScenA false "BTC stop loss now").words
      = (analyse cfgScenA false "BTC stop loss now").words :=
  C9_deterministic cfgScenA cfgScenA false false _ _ rfl rfl rfl

/-- C1 counterexample: with the two-segment term `a b` matching at
cursor 0 (window `j+1 = 2`, reported as `j = 1`), the following
segment `c` is word-like and non-numeric, yet the scan does not emit
it: the output is `["ab"]` alone, because the scan resumes at index
`i+j+2`, not `i+j+1` as the claim states. -/
theorem C1_counterexample :
    tryTerms [["a", "b"]] [⟨"a", true⟩, ⟨"b", true⟩, ⟨"c", true⟩] = some ("ab", 1) ∧
    (⟨"c", true⟩ : Seg).isWordLike = true ∧ number_isNaN "c" = true ∧
    tokenize [["a", "b"]] [⟨"a", true⟩, ⟨"b", true⟩, ⟨"c", true⟩] = ["ab"] ∧
    ¬ ("c" ∈ tokenize [["a", "b"]] [⟨"a", true⟩, ⟨"b", true⟩, ⟨"c", true⟩]) := by decide

/-- C1 (amended): when a configured term matches the window of `j+1`
segments at the cursor, the joined term text is emitted as one token
and the scan resumes at segment index `i+j+2` — the segment
immediately after the consumed window is skipped, because `i += j + 1`
is followed by the `for` header's own `i++`. -/
theorem C1_amended (terms : List (List String)) (s : Seg) (rest : List Seg)
    (tok : String) (j : ℕ) (h : tryTerms terms (s :: rest) = some (tok, j)) :
    tokenize terms (s :: rest) = tok :: tokenize terms ((s :: rest).drop (j + 2)) := by
  rw [tokenize_term_step terms s rest tok j h]
  rfl

/-- Witness for the amended C1: the concrete match of `x y` consumes
the window and one further segment. -/
theorem C1_witness :
    tokenize [["x", "y"]] [⟨"x", true⟩, ⟨"y", true⟩, ⟨"z", true⟩] =
      "xy" :: tokenize [["x", "y"]] ([⟨"x", true⟩, ⟨"y", true⟩, ⟨"z", true⟩].drop 3) :=
  C1_amended [["x", "y"]] ⟨"x", true⟩ [⟨"y", true⟩, ⟨"z", true⟩] "xy" 1 (by decide)

/-- C5: the language classifier reports Chinese iff the number of
tokens containing an ideograph strictly exceeds
`floor(tokenCount * hanzi_percentage)`; at threshold `0.5`, four
tokens with two ideograph tokens give `false`, three ideograph tokens
give `true`, and the empty token list gives `false`. -/
theorem C5_language_threshold :
    (∀ (cfg : Config) (nf : Bool) (segs : List Seg),
      (analyseSegs cfg nf segs).is_chinese = true ↔
        (((tokenize (segmentedTerms cfg) segs).filter han_match).length : ℤ) >
          floor_mul_frac (tokenize (segmentedTerms cfg) segs).length
            cfg.hanzi_num cfg.hanzi_den) ∧
    (analyseSegs cfgScenA true
      [⟨"中", true⟩, ⟨"文", true⟩, ⟨"ab", true⟩, ⟨"cd", true⟩]).is_chinese = false ∧
    (analyseSegs cfgScenA true
      [⟨"中", true⟩, ⟨"文", true⟩, ⟨"水", true⟩, ⟨"ab", true⟩]).is_chinese = true ∧
    (∀ cfg : Config, classify cfg [] = false) := by
  refine ⟨?_, by decide, by decide, classify_nil⟩
  intro cfg nf segs
  cases nf <;> simp [analyseSegs, classify, decide_eq_true_iff]

/-- C3: `analyse` is total and degrades gracefully — the empty string
yields `{is_chinese := false, words := []}`, and so does any segment
list with no word-like segment on which no term window matches. -/
theorem C3_graceful (cfg : Config) (nf : Bool) :
    analyse cfg nf "" = ⟨false, []⟩ ∧
    ∀ segs : List Seg, (∀ s ∈ segs, s.isWordLike = false) →
      (∀ i, i < segs.length → tryTerms (segmentedTerms cfg) (segs.drop i) = none) →
      analyseSegs cfg nf segs = ⟨false, []⟩ := by
  constructor
  · have h1 : analyse cfg nf "" = ⟨classify cfg [], []⟩ := by cases nf <;> rfl
    rw [h1, classify_nil]
  · intro segs h1 h2
    have ht : tokenize (segmentedTerms cfg) segs = [] :=
      tokenizeF_nil_of _ segs.length segs h1 h2
    have h3 : analyseSegs cfg nf segs = ⟨classify cfg [], []⟩ := by
      cases nf <;> simp [analyseSegs, ht, canonicalize, dedupFirst, dedupFirstF]
    rw [h3, classify_nil]

/-- Witness for C3: a lone punctuation segment produces the minimal
result under Scenario A's configuration. -/
theorem C3_witness : analyseSegs cfgScenA false [⟨".", false⟩] = ⟨false, []⟩ :=
  (C3_graceful cfgScenA false).2 [⟨".", false⟩] (by decide) (by decide)

/-- C8: a word-like segment followed by an alternating chain of `-` and
word-like segments is consumed greedily into one token joined with
`-`, and the scan resumes right after the chain; in particular
`state - of - the - art` becomes the single token
`"state-of-the-art"`. -/
theorem C8_hyphen_compound (terms : List (List String)) (w : String) (ws : List String)
    (rest : List Seg) (hne : ws ≠ [])
    (hterm : tryTerms terms (⟨w, true⟩ :: (chainSegs ws ++ rest)) = none)
    (hrest : chainStep rest = false) :
    tokenize terms (⟨w, true⟩ :: (chainSegs ws ++ rest)) =
      String.intercalate "-" (w :: ws) :: tokenize terms rest := by
  obtain ⟨w1, ws', rfl⟩ : ∃ w1 ws', ws = w1 :: ws' := by
    cases ws with
    | nil => exact absurd rfl hne
    | cons a b => exact ⟨a, b, rfl⟩
  have hL : chainSegs (w1 :: ws') ++ rest
      = ⟨"-", false⟩ :: ⟨w1, true⟩ :: (chainSegs ws' ++ rest) := by
    simp [chainSegs]
  rw [hL] at hterm ⊢
  show tokenizeF terms _ _ = _
  simp only [List.length_cons, tokenizeF, hterm]
  simp only [Bool.and_false, Bool.false_and, Bool.and_true, Bool.true_and,
    Bool.false_eq_true, if_false, beq_self_eq_true, if_true]
  rw [← hL, hyphenChain_run (w1 :: ws') [w] rest hrest]
  have hdrop : (chainSegs (w1 :: ws') ++ rest).drop (2 * (w1 :: ws').length) = rest := by
    rw [← chainSegs_length (w1 :: ws')]
    exact List.drop_left _ _
  rw [hdrop]
  rw [← tokenize_eq_tokenizeF terms ((chainSegs ws' ++ rest).length + 1 + 1) rest
    (by simp only [List.length_append]; omega)]
  rfl

/-- Witness for C8: the spec's Scenario C segment sequence. -/
theorem C8_witness :
    tokenize [] [⟨"state", true⟩, ⟨"-", false⟩, ⟨"of", true⟩, ⟨"-", false⟩,
      ⟨"the", true⟩, ⟨"-", false⟩, ⟨"art", true⟩] = ["state-of-the-art"] := by
  have h := C8_hyphen_compound [] "state" ["of", "the", "art"] [] (by simp)
    (by decide) (by decide)
  simpa using h

/-- C6 counterexample: the expanded ignore set generated from base
entry `run` does not contain `"running"` — the code appends `"ing"` to
the base (giving `"runing"`) and to the base minus its last character
(giving `"ruing"`), never doubling the final consonant. -/
theorem C6_counterexample :
    ¬ ("running" ∈ ignore_list cfgRun) ∧
    ignore_list cfgRun = ["run", "runs", "runing", "ruing", "rund", "runed"] := by decide

/-- C6 (amended): for every base entry `w` of the ignore list, the
expanded set contains the trimmed base, its plural, base+`ing`,
base-minus-last-character+`ing`, base+`d` and base+`ed`; for `run`
these are exactly `run, runs, runing, ruing, rund, runed` (not
`running`). -/
theorem C6_amended (cfg : Config) (w : String) (h : w ∈ cfg.ignore_base) :
    trimModel w ∈ ignore_list cfg ∧
    pluralizeModel (trimModel w) ∈ ignore_list cfg ∧
    (trimModel w ++ "ing") ∈ ignore_list cfg ∧
    (String.mk (trimModel w).data.dropLast ++ "ing") ∈ ignore_list cfg ∧
    (trimModel w ++ "d") ∈ ignore_list cfg ∧
    (trimModel w ++ "ed") ∈ ignore_list cfg ∧
    expand_entry pluralizeModel "run" = ["run", "runs", "runing", "ruing", "rund", "runed"] := by
  have hb : trimModel w ∈ cfg.ignore_base.map trimModel := List.mem_map_of_mem _ h
  refine ⟨?_, ?_, ?_, ?_, ?_, ?_, by decide⟩ <;>
    exact List.mem_flatMap.mpr ⟨trimModel w, hb, by simp [expand_entry]⟩

/-- Witness for the amended C6 at base entry `run`. -/
theorem C6_witness :
    trimModel "run" ∈ ignore_list cfgRun ∧
    pluralizeModel (trimModel "run") ∈ ignore_list cfgRun ∧
    (trimModel "run" ++ "ing") ∈ ignore_list cfgRun ∧
    (String.mk (trimModel "run").data.dropLast ++ "ing") ∈ ignore_list cfgRun ∧
    (trimModel "run" ++ "d") ∈ ignore_list cfgRun ∧
    (trimModel "run" ++ "ed") ∈ ignore_list cfgRun ∧
    expand_entry pluralizeModel "run" = ["run", "runs", "runing", "ruing", "rund", "runed"] :=
  C6_amended cfgRun "run" (by decide)

theorem map_eq_self_of_fixed {f : String → String} :
    ∀ (l : List String), (∀ y ∈ l, f y = y) → l.map f = l
  | [], _ => rfl
  | x :: xs, h => by
    simp only [List.map_cons]
    rw [h x (List.mem_cons_self _ _),
      map_eq_self_of_fixed xs (fun y hy => h y (List.mem_cons_of_mem _ hy))]

/-- C7: canonicalization is idempotent — mapping through the alias
table and deduplicating twice gives the same unique ordered sequence
as doing it once, provided aliases are not chained through the table
(every alias value is a fixed point of the lookup). -/
theorem C7_canonicalize_idempotent (A : List (String × String))
    (h : ∀ p ∈ A, aliasApply A p.2 = p.2) (ts : List String) :
    canonicalize A (canonicalize A ts) = canonicalize A ts := by
  unfold canonicalize
  have hfix : ∀ y ∈ dedupFirst (ts.map (aliasApply A)), aliasApply A y = y := by
    intro y hy
    obtain ⟨x, _, rfl⟩ := List.mem_map.mp (dedupFirst_mem _ y hy)
    exact aliasApply_square A h x
  rw [map_eq_self_of_fixed _ hfix, dedupFirst_idem]

/-- Witness for C7 with the Scenario A alias table. -/
theorem C7_witness :
    canonicalize [("btc", "bitcoin")]
        (canonicalize [("btc", "bitcoin")] ["btc", "eth", "btc"])
      = canonicalize [("btc", "bitcoin")] ["btc", "eth", "btc"] :=
  C7_canonicalize_idempotent [("btc", "bitcoin")] (by decide) ["btc", "eth", "btc"]

/-- C2 counterexample: on `"#BTC to the moon"` with Scenario B's
configuration (empty ignore set), the filtered words are
`["#btc", "the", "moon"]`, not `["#btc", "moon"]`: `"the"` has three
characters, so the length-floor predicate keeps it. -/
theorem C2_counterexample :
    (analyse cfgScenB false "#BTC to the moon").words ≠ ["#btc", "moon"] ∧
    length_floor_pass "the" = true ∧ ¬ ("the".length ≤ 2) := by decide

/-- C2 (amended): the tag rule yields `"#btc"`; among the plain words
`"to", "the", "moon"`, only `"to"` (2 characters) is dropped by the
length floor; `"the"` (3 characters) passes every filter predicate, so
the filtered words are exactly `["#btc", "the", "moon"]` (none of them
in the — here empty — ignore set). -/
theorem C2_amended :
    tokenize (segmentedTerms cfgScenB)
        (modelSegment (normalizeText cfgScenB "#BTC to the moon"))
      = ["#btc", "to", "the", "moon"] ∧
    keepWord cfgScenB "to" = false ∧ length_floor_pass "to" = false ∧
    keepWord cfgScenB "the" = true ∧
    analyse cfgScenB false "#BTC to the moon" = ⟨false, ["#btc", "the", "moon"]⟩ := by decide

/-- C4 counterexample: with Scenario A's configuration the alias
`btc → bitcoin` is applied by the normalizer (`src/util.ts:90`) before
segmentation, so the tokens after term matching are
`["bitcoin", "stop loss", "now"]`, not `["btc", "stop loss", "now"]`
as the claim states. -/
theorem C4_counterexample :
    normalizeText cfgScenA "BTC stop loss now" = "bitcoin stop loss now" ∧
    tokenize (segmentedTerms cfgScenA)
        (modelSegment (normalizeText cfgScenA "BTC stop loss now"))
      ≠ ["btc", "stop loss", "now"] := by decide

/-- C4 (amended): the tokens after term matching are
`["bitcoin", "stop loss", "now"]` (the alias already fired during
normalization); canonicalization leaves them unchanged; all three pass
the filter and `analyse` returns
`{is_chinese := false, words := ["bitcoin", "stop loss", "now"]}`. -/
theorem C4_amended :
    tokenize (segmentedTerms cfgScenA)
        (modelSegment (normalizeText cfgScenA "BTC stop loss now"))
      = ["bitcoin", "stop loss", "now"] ∧
    canonicalize cfgScenA.aliases ["bitcoin", "stop loss", "now"]
      = ["bitcoin", "stop loss", "now"] ∧
    keepWord cfgScenA "bitcoin" = true ∧ keepWord cfgScenA "stop loss" = true ∧
    keepWord cfgScenA "now" = true ∧
    analyse cfgScenA false "BTC stop loss now"
      = ⟨false, ["bitcoin", "stop loss", "now"]⟩ := by decide

/-- C10: every word of the filtered output is an all-ASCII string of
more than two characters; consequently no word containing an ideograph
or kana character appears, whatever the exclusion flags; and the
short-CJK exemption of the length floor never changes the filter (the
filter equals its unconditional-floor variant pointwise). -/
theorem C10_filtered_invariant :
    (∀ (cfg : Config) (segs : List Seg) (w : String),
      w ∈ (analyseSegs cfg false segs).words →
        all_ascii w = true ∧ 2 < w.length ∧ han_match w = false ∧
          hiragana_match w = false) ∧
    (∀ (cfg : Config) (w : String), keepWord cfg w = keepWordPlain cfg w) := by
  constructor
  · intro cfg segs w hw
    simp only [analyseSegs, Bool.false_eq_true, if_false, List.mem_filter] at hw
    have hw2 : keepWord cfg w = true := hw.2
    simp only [keepWord, Bool.and_eq_true] at hw2
    obtain ⟨⟨⟨⟨⟨⟨h1, h2⟩, h3⟩, h4⟩, h5⟩, h6⟩, h7⟩ := hw2
    have hhan := han_match_of_ascii h5
    have hkana := hiragana_match_of_ascii h5
    refine ⟨h5, ?_, hhan, hkana⟩
    simp only [length_floor_pass, hhan, hkana, Bool.not_false, Bool.and_self, if_true,
      decide_eq_true_eq] at h4
    exact h4
  · intro cfg w
    by_cases hascii : all_ascii w = true
    · have hhan := han_match_of_ascii hascii
      have hkana := hiragana_match_of_ascii hascii
      simp only [keepWord, keepWordPlain, length_floor_pass, hhan, hkana, Bool.not_false,
        Bool.and_self, if_true]
    · have h5 : all_ascii w = false := by revert hascii; cases all_ascii w <;> simp
      simp only [keepWord, keepWordPlain, h5, Bool.and_false, Bool.false_and]

/-- Witness for C10 on a concrete filtered output word. -/
theorem C10_witness :
    all_ascii "moon" = true ∧ 2 < "moon".length ∧ han_match "moon" = false ∧
      hiragana_match "moon" = false :=
  C10_filtered_invariant.1 cfgScenB [⟨"moon", true⟩] "moon" (by decide)
